import Mathlib

/-!
Verification of the FreeRTOS CLI console in src/Core/Src/CommandLineInterface.c.

The console task `prvUARTCommandConsoleTask` (lines 356-457) receives one
character at a time, echoes it, assembles it into the bounded buffer
`cInputString` (capacity `cmdMAX_INPUT_SIZE = 50`), applies backspace/DEL
editing, and on a terminator (CR or LF) runs the dispatch loop that calls
`FreeRTOS_CLIProcessCommand` repeatedly, then remembers the line in
`cLastInputString` and clears the input buffer.  An empty line re-dispatches
the remembered previous line.

The embedding below models the per-character body of the task's for(;;) loop
as a function from console state and received character to an optional next
state (None models undefined behaviour: a C-string operation running past the
end of one of the two 50-byte arrays) together with the list of observable
actions (echo, newline separator, the line handed to the interpreter, the
end-of-output trailer).  Buffers are `List Char` of length 50; the C NUL
terminator is modelled explicitly, since the editing and copying code
manipulates it explicitly (`memset`, `cInputString[ucInputIndex] = '\0'`,
`strcpy`).
-/

set_option maxRecDepth 100000

namespace CommandLineInterface

/-- Line 27: `#define cmdMAX_INPUT_SIZE 50`. -/
def cmdMAX_INPUT_SIZE : Nat := 50

/-- Line 38: `#define cmdASCII_DEL ( 0x7F )`. -/
def cmdASCII_DEL : Char := Char.ofNat 0x7F

/-- The ASCII backspace character `'\b'` (0x08) tested on line 436. -/
def backspaceChar : Char := Char.ofNat 0x08

/-- The C NUL byte `'\0'`. -/
def nul : Char := Char.ofNat 0

/-- Decidable printability test, ASCII space through tilde (line 447). -/
def printableB (c : Char) : Bool := decide (' ' ≤ c) && decide (c ≤ '~')

/-- The mutable state of `prvUARTCommandConsoleTask` that survives between
received characters: the input buffer `cInputString`, the write index
`ucInputIndex` and the previous-command buffer `cLastInputString`
(lines 359-360). -/
structure ConsoleState where
  cInputString : List Char
  ucInputIndex : Nat
  cLastInputString : List Char
  deriving Repr, DecidableEq

/-- Both static buffers start zero-initialised and the index starts at 0
(lines 359-360). -/
def initState : ConsoleState :=
  { cInputString := List.replicate cmdMAX_INPUT_SIZE nul
    ucInputIndex := 0
    cLastInputString := List.replicate cmdMAX_INPUT_SIZE nul }

/-- Observable actions of one loop iteration: the echo of the received
character (line 396), the blank-line separator (line 401), the command line
handed to `FreeRTOS_CLIProcessCommand` (line 416), an out-of-bounds C-string
operation (undefined behaviour), and the end-of-output trailer (line 432). -/
inductive Event where
  | echo (c : Char)
  | newline
  | dispatch (line : List Char)
  | oob
  | endMsg
  deriving Repr, DecidableEq

/-- The C string held in a buffer: the characters before the first NUL byte,
or `none` when no NUL lies within the buffer (in which case any C string
function walks past the end of the array: undefined behaviour). -/
def cLine (buf : List Char) : Option (List Char) :=
  if nul ∈ buf then some (buf.takeWhile (fun c => c != nul)) else none

/-- `strcpy(dst, src)`: copies the string in `src` plus its NUL terminator
into `dst`, leaving the bytes of `dst` after the copied terminator unchanged.
`none` when `src` holds no NUL or the copy would run past the end of `dst`
(out-of-bounds access). -/
def strcpyBuf (dst src : List Char) : Option (List Char) :=
  match cLine src with
  | none => none
  | some line =>
    if line.length + 1 ≤ dst.length then
      some (line ++ nul :: dst.drop (line.length + 1))
    else none

/-- Line 405-408: when the terminator arrives with `ucInputIndex == 0` the
previous command is copied back into the input buffer
(`strcpy(cInputString, cLastInputString)`); otherwise the input buffer is used
as it stands. -/
def termInput (s : ConsoleState) : Option (List Char) :=
  if s.ucInputIndex = 0 then strcpyBuf s.cInputString s.cLastInputString
  else some s.cInputString

/-- Lines 399-432, the terminator branch: send the newline separator, fetch
the command line (repeating the previous one on an empty line), run the
dispatch loop over it, remember it with `strcpy(cLastInputString,
cInputString)`, reset `ucInputIndex` to 0, `memset` the input buffer to zero,
and send the end-of-output trailer.  `none` models the undefined behaviour
when a C-string operation runs off the end of a buffer (which happens exactly
when the buffer holds no NUL terminator). -/
def termStep (s : ConsoleState) : Option ConsoleState × List Event :=
  match termInput s with
  | none => (none, [Event.newline, Event.oob])
  | some inp =>
    match cLine inp with
    | none => (none, [Event.newline, Event.oob])
    | some line =>
      match strcpyBuf s.cLastInputString inp with
      | none => (none, [Event.newline, Event.dispatch line, Event.oob])
      | some newLast =>
        (some { cInputString := List.replicate cmdMAX_INPUT_SIZE nul
                ucInputIndex := 0
                cLastInputString := newLast },
         [Event.newline, Event.dispatch line, Event.endMsg])

/-- Lines 393-455, the body of the receive loop for one received character:
echo the character (line 396), then classify it: terminator (line 399),
the unreachable lone-CR ignore branch (lines 434-435), backspace/DEL editing
(lines 436-442), printable append with capacity check (lines 447-451);
every other character leaves the state untouched. -/
def processChar (s : ConsoleState) (c : Char) : Option ConsoleState × List Event :=
  if c = '\n' ∨ c = '\r' then
    ((termStep s).1, Event.echo c :: (termStep s).2)
  else if c = '\r' then
    (some s, [Event.echo c])
  else if c = backspaceChar ∨ c = cmdASCII_DEL then
    (some (if 0 < s.ucInputIndex then
            { cInputString := s.cInputString.set (s.ucInputIndex - 1) nul
              ucInputIndex := s.ucInputIndex - 1
              cLastInputString := s.cLastInputString }
           else s),
     [Event.echo c])
  else if ' ' ≤ c ∧ c ≤ '~' then
    (some (if s.ucInputIndex < cmdMAX_INPUT_SIZE then
            { cInputString := s.cInputString.set s.ucInputIndex c
              ucInputIndex := s.ucInputIndex + 1
              cLastInputString := s.cLastInputString }
           else s),
     [Event.echo c])
  else
    (some s, [Event.echo c])

/-- Feed a list of received characters through the console loop one at a
time, accumulating the observable actions; stops at the first undefined
behaviour. -/
def runFrom (s : ConsoleState) : List Char → Option ConsoleState × List Event
  | [] => (some s, [])
  | c :: cs =>
    match processChar s c with
    | (none, evs) => (none, evs)
    | (some s', evs) => ((runFrom s' cs).1, evs ++ (runFrom s' cs).2)

/-- Run the console from its start-of-task state. -/
def runConsole (cs : List Char) : Option ConsoleState × List Event :=
  runFrom initState cs

/-- Project an event to the command line it dispatches, if any. -/
def dispatchLineOf : Event → Option (List Char)
  | Event.dispatch l => some l
  | _ => none

/-- The sequence of command lines handed to `FreeRTOS_CLIProcessCommand`
during a trace, in order. -/
def dispatchedLines (evs : List Event) : List (List Char) :=
  evs.filterMap dispatchLineOf

/-- A buffer whose first `P.length` cells hold `P` and whose remaining cells
are zero: the shape of `cInputString` whenever the accepted characters so far
are `P`. -/
def mkBuf (P : List Char) : List Char :=
  P ++ List.replicate (cmdMAX_INPUT_SIZE - P.length) nul

/-- The specification's view of line assembly ("the characters accepted after
applying the backspace editing"): fold the received characters, dropping the
last accepted character on backspace/DEL, appending a printable character
while there is room, and ignoring everything else. -/
def editStep (acc : List Char) (c : Char) : List Char :=
  if c = backspaceChar ∨ c = cmdASCII_DEL then acc.dropLast
  else if ' ' ≤ c ∧ c ≤ '~' then
    (if acc.length < cmdMAX_INPUT_SIZE then acc ++ [c] else acc)
  else acc

/-- The accepted characters after editing, over a whole received sequence. -/
def editLine (cs : List Char) : List Char := cs.foldl editStep []

/-! ### Helper lemmas about buffers, C strings and the editing fold -/

theorem printable_ne_nul {c : Char} (h : ' ' ≤ c ∧ c ≤ '~') : c ≠ nul := by
  rintro rfl
  exact absurd h.1 (by decide)

theorem printableB_iff (c : Char) : printableB c = true ↔ (' ' ≤ c ∧ c ≤ '~') := by
  simp [printableB]

theorem set_append_len (P l : List Char) (c : Char) :
    (P ++ l).set P.length c = P ++ l.set 0 c := by
  induction P with
  | nil => simp
  | cons p P ih => simp [ih]

theorem mkBuf_nil : mkBuf [] = List.replicate cmdMAX_INPUT_SIZE nul := by
  simp [mkBuf]

theorem mkBuf_length (P : List Char) (h : P.length ≤ cmdMAX_INPUT_SIZE) :
    (mkBuf P).length = cmdMAX_INPUT_SIZE := by
  simp [mkBuf]
  omega

theorem mkBuf_cons_nul (P : List Char) (h : P.length + 1 ≤ cmdMAX_INPUT_SIZE) :
    mkBuf P = P ++ nul :: List.replicate (cmdMAX_INPUT_SIZE - (P.length + 1)) nul := by
  unfold mkBuf
  congr 1
  have : cmdMAX_INPUT_SIZE - P.length = (cmdMAX_INPUT_SIZE - (P.length + 1)) + 1 := by omega
  rw [this, List.replicate_succ]

theorem takeWhile_append_nul (P rest : List Char) (hP : ∀ x ∈ P, x ≠ nul) :
    (P ++ nul :: rest).takeWhile (fun c => c != nul) = P := by
  induction P with
  | nil => simp [List.takeWhile_cons]
  | cons p P ih =>
    have hp : p ≠ nul := hP p (by simp)
    have hcond : (p != nul) = true := by simp [hp]
    simp only [List.cons_append, List.takeWhile_cons, hcond, if_true]
    rw [ih (fun x hx => hP x (by simp [hx]))]

theorem cLine_append_nul (P rest : List Char) (hP : ∀ x ∈ P, x ≠ nul) :
    cLine (P ++ nul :: rest) = some P := by
  unfold cLine
  rw [if_pos (by simp), takeWhile_append_nul P rest hP]

theorem cLine_replicate_nul (n : Nat) (hn : 0 < n) :
    cLine (List.replicate n nul) = some [] := by
  obtain ⟨m, rfl⟩ : ∃ m, n = m + 1 := ⟨n - 1, by omega⟩
  rw [List.replicate_succ]
  exact cLine_append_nul [] (List.replicate m nul) (by simp)

theorem cLine_mem_ne_nul {l Q : List Char} (h : cLine l = some Q) :
    ∀ x ∈ Q, x ≠ nul := by
  unfold cLine at h
  split at h
  · obtain rfl : l.takeWhile (fun c => c != nul) = Q := Option.some.inj h
    intro x hx
    have := List.mem_takeWhile_imp hx
    simpa using this
  · exact absurd h (by simp)

theorem cLine_mem_subset {l Q : List Char} (h : cLine l = some Q) :
    ∀ x ∈ Q, x ∈ l := by
  unfold cLine at h
  split at h
  · obtain rfl : l.takeWhile (fun c => c != nul) = Q := Option.some.inj h
    intro x hx
    exact (List.takeWhile_sublist _).subset hx
  · exact absurd h (by simp)

theorem cLine_no_nul {l : List Char} (h : ∀ x ∈ l, x ≠ nul) : cLine l = none := by
  unfold cLine
  rw [if_neg]
  intro hmem
  exact h nul hmem rfl

theorem strcpyBuf_eq_some {dst src nl : List Char} (h : strcpyBuf dst src = some nl) :
    ∃ line, cLine src = some line ∧ line.length + 1 ≤ dst.length ∧
      nl = line ++ nul :: dst.drop (line.length + 1) := by
  unfold strcpyBuf at h
  split at h
  · exact absurd h (by simp)
  · rename_i line hline
    split at h
    · rename_i hlen
      exact ⟨line, hline, hlen, (Option.some.inj h).symm⟩
    · exact absurd h (by simp)

theorem strcpyBuf_of_cLine {dst src line : List Char} (hl : cLine src = some line)
    (hlen : line.length + 1 ≤ dst.length) :
    strcpyBuf dst src = some (line ++ nul :: dst.drop (line.length + 1)) := by
  simp [strcpyBuf, hl, hlen]

theorem strcpyBuf_length {dst src nl : List Char} (h : strcpyBuf dst src = some nl) :
    nl.length = dst.length := by
  obtain ⟨line, _, hlen, rfl⟩ := strcpyBuf_eq_some h
  simp [List.length_drop]
  omega

/-! ### Characterisations of the per-character step -/

theorem processChar_term (s : ConsoleState) (c : Char) (h : c = '\n' ∨ c = '\r') :
    processChar s c = ((termStep s).1, Event.echo c :: (termStep s).2) := by
  unfold processChar
  rw [if_pos h]

theorem termStep_eq_some {s s' : ConsoleState} {evs : List Event}
    (h : termStep s = (some s', evs)) :
    ∃ inp line newLast,
      termInput s = some inp ∧ cLine inp = some line ∧
      strcpyBuf s.cLastInputString inp = some newLast ∧
      s' = { cInputString := List.replicate cmdMAX_INPUT_SIZE nul
             ucInputIndex := 0
             cLastInputString := newLast } ∧
      evs = [Event.newline, Event.dispatch line, Event.endMsg] := by
  unfold termStep at h
  split at h
  · simp at h
  · rename_i inp hinp
    split at h
    · simp at h
    · rename_i line hline
      split at h
      · simp at h
      · rename_i newLast hlast
        obtain ⟨h1, h2⟩ := Prod.mk.injEq .. ▸ h
        exact ⟨inp, line, newLast, hinp, hline, hlast, (Option.some.inj h1).symm, h2.symm⟩

theorem termStep_build {s : ConsoleState} {inp line newLast : List Char}
    (h1 : termInput s = some inp) (h2 : cLine inp = some line)
    (h3 : strcpyBuf s.cLastInputString inp = some newLast) :
    termStep s = (some { cInputString := List.replicate cmdMAX_INPUT_SIZE nul
                         ucInputIndex := 0
                         cLastInputString := newLast },
                  [Event.newline, Event.dispatch line, Event.endMsg]) := by
  simp [termStep, h1, h2, h3]

/-- Effect of one non-terminator character on a well-formed buffer state: the
buffer tracks the editing fold exactly. -/
theorem processChar_edit (P L : List Char) (c : Char)
    (hlen : P.length ≤ cmdMAX_INPUT_SIZE)
    (hc : (' ' ≤ c ∧ c ≤ '~') ∨ c = backspaceChar ∨ c = cmdASCII_DEL) :
    processChar { cInputString := mkBuf P, ucInputIndex := P.length,
                  cLastInputString := L } c
      = (some { cInputString := mkBuf (editStep P c)
                ucInputIndex := (editStep P c).length
                cLastInputString := L },
         [Event.echo c]) := by
  have hterm : ¬ (c = '\n' ∨ c = '\r') := by
    rcases hc with ⟨h1, h2⟩ | rfl | rfl
    · rintro (rfl | rfl) <;> revert h1 <;> decide
    · rintro (h | h) <;> revert h <;> decide
    · rintro (h | h) <;> revert h <;> decide
  have hcr : ¬ c = '\r' := fun h => hterm (Or.inr h)
  rcases hc with hpr | hbs
  · -- printable character: lines 447-451
    have hnb : ¬ (c = backspaceChar ∨ c = cmdASCII_DEL) := by
      obtain ⟨h1, h2⟩ := hpr
      rintro (rfl | rfl)
      · exact absurd h1 (by decide)
      · exact absurd h2 (by decide)
    unfold processChar editStep
    rw [if_neg hterm, if_neg hcr, if_neg hnb, if_pos hpr, if_neg hnb, if_pos hpr]
    by_cases hfull : P.length < cmdMAX_INPUT_SIZE
    · obtain ⟨m, hm⟩ : ∃ m, cmdMAX_INPUT_SIZE - P.length = m + 1 :=
        ⟨cmdMAX_INPUT_SIZE - P.length - 1, by omega⟩
      have hset : (mkBuf P).set P.length c = mkBuf (P ++ [c]) := by
        have hl2 : (P ++ [c]).length = P.length + 1 := by simp
        unfold mkBuf
        rw [hl2, set_append_len, hm, List.replicate_succ, List.set_cons_zero,
          List.append_assoc, List.singleton_append]
        have hm2 : m = cmdMAX_INPUT_SIZE - (P.length + 1) := by omega
        rw [hm2]
      simp [hfull, hset]
    · simp [hfull]
  · -- backspace or DEL: lines 436-442
    unfold processChar editStep
    rw [if_neg hterm, if_neg hcr, if_pos hbs, if_pos hbs]
    rcases List.eq_nil_or_concat P with rfl | ⟨Q, a, rfl⟩
    · simp
    · simp only [List.concat_eq_append] at hlen ⊢
      have hQ : (Q ++ [a]).length - 1 = Q.length := by simp
      have hset : (mkBuf (Q ++ [a])).set Q.length nul = mkBuf Q := by
        have h2 : cmdMAX_INPUT_SIZE - Q.length
            = (cmdMAX_INPUT_SIZE - (Q ++ [a]).length) + 1 := by
          simp only [List.length_append, List.length_cons, List.length_nil] at hlen ⊢
          omega
        unfold mkBuf
        rw [List.append_assoc, List.singleton_append, set_append_len,
          List.set_cons_zero, h2, List.replicate_succ]
      have hdl : (Q ++ [a]).dropLast = Q := by simp
      simp [hQ, hset, hdl]

/-- A character that is no terminator, no backspace and not printable leaves
the state untouched (the final `else` of lines 443-453 and the dead branch of
lines 434-435). -/
theorem processChar_other (s : ConsoleState) (c : Char)
    (hterm : ¬ (c = '\n' ∨ c = '\r'))
    (hbs : ¬ (c = backspaceChar ∨ c = cmdASCII_DEL))
    (hpr : ¬ (' ' ≤ c ∧ c ≤ '~')) :
    processChar s c = (some s, [Event.echo c]) := by
  unfold processChar
  rw [if_neg hterm, if_neg (fun h => hterm (Or.inr h)), if_neg hbs, if_neg hpr]

theorem runFrom_cons (s : ConsoleState) (c : Char) (cs : List Char) :
    runFrom s (c :: cs)
      = match processChar s c with
        | (none, evs) => (none, evs)
        | (some s', evs) => ((runFrom s' cs).1, evs ++ (runFrom s' cs).2) := rfl

theorem runFrom_cons_some {s s' : ConsoleState} {evs : List Event} (c : Char)
    (cs : List Char) (h : processChar s c = (some s', evs)) :
    runFrom s (c :: cs) = ((runFrom s' cs).1, evs ++ (runFrom s' cs).2) := by
  rw [runFrom_cons, h]

theorem runFrom_append_some {s s₁ : ConsoleState} {tr : List Event}
    (xs ys : List Char) (h : runFrom s xs = (some s₁, tr)) :
    runFrom s (xs ++ ys) = ((runFrom s₁ ys).1, tr ++ (runFrom s₁ ys).2) := by
  induction xs generalizing s tr with
  | nil =>
    obtain ⟨h1, h2⟩ := Prod.mk.injEq .. ▸ h
    obtain rfl : s = s₁ := Option.some.inj h1
    simp [← h2]
  | cons x xs ih =>
    rw [runFrom_cons] at h
    rcases hp : processChar s x with ⟨o, evs⟩
    rw [hp] at h
    cases o with
    | none => simp at h
    | some s₂ =>
      obtain ⟨h1, h2⟩ := Prod.mk.injEq .. ▸ h
      rcases hr : runFrom s₂ xs with ⟨o₂, tr₂⟩
      rw [hr] at h1 h2
      cases o₂ with
      | none => simp at h1
      | some s₃ =>
        obtain rfl : s₃ = s₁ := Option.some.inj h1
        rw [List.cons_append, runFrom_cons_some x (xs ++ ys) hp,
          ih (h := by rw [hr])]
        simp [← h2]

theorem runFrom_single (s : ConsoleState) (c : Char) :
    runFrom s [c] = processChar s c := by
  rw [runFrom_cons]
  rcases hp : processChar s c with ⟨o, evs⟩
  cases o <;> simp [runFrom]

/-! ### Properties of the editing fold -/

theorem editStep_length (P : List Char) (c : Char) (h : P.length ≤ cmdMAX_INPUT_SIZE) :
    (editStep P c).length ≤ cmdMAX_INPUT_SIZE := by
  unfold editStep
  split
  · have := List.length_dropLast P
    omega
  · split
    · split
      · rename_i hlt
        simp
        omega
      · exact h
    · exact h

theorem editStep_count (P : List Char) (c : Char) :
    (editStep P c).length ≤ P.length + (if printableB c then 1 else 0) := by
  unfold editStep
  by_cases hb : printableB c = true
  · rw [if_pos hb]
    split
    · have := List.length_dropLast P
      omega
    · split
      · split
        · simp
        · omega
      · omega
  · rw [if_neg hb]
    split
    · have := List.length_dropLast P
      omega
    · split
      · rename_i hpr
        exact absurd ((printableB_iff c).mpr hpr) hb
      · omega

theorem editLine_length (cs : List Char) :
    ∀ P, (cs.foldl editStep P).length ≤ P.length + cs.countP printableB := by
  induction cs with
  | nil => simp
  | cons c cs ih =>
    intro P
    have h1 := editStep_count P c
    have h2 := ih (editStep P c)
    rw [List.foldl_cons, List.countP_cons]
    by_cases hb : printableB c = true <;> simp [hb] at h1 ⊢ <;> omega

theorem editStep_mem (P : List Char) (c x : Char) (hx : x ∈ editStep P c) :
    x ∈ P ∨ ((' ' ≤ c ∧ c ≤ '~') ∧ x = c) := by
  unfold editStep at hx
  split at hx
  · exact Or.inl ((List.dropLast_sublist P).subset hx)
  · split at hx
    · split at hx
      · rcases List.mem_append.mp hx with h | h
        · exact Or.inl h
        · rename_i hpr _
          exact Or.inr ⟨hpr, by simpa using h⟩
      · exact Or.inl hx
    · exact Or.inl hx

theorem editLine_printable (cs : List Char) :
    ∀ P, (∀ x ∈ P, ' ' ≤ x ∧ x ≤ '~') →
      ∀ x ∈ cs.foldl editStep P, ' ' ≤ x ∧ x ≤ '~' := by
  induction cs with
  | nil => exact fun P hP => hP
  | cons c cs ih =>
    intro P hP x hx
    refine ih (editStep P c) ?_ x hx
    intro y hy
    rcases editStep_mem P c y hy with h | ⟨hc, rfl⟩
    · exact hP y h
    · exact hc

/-- Running any sequence of printable and backspace/DEL characters from a
well-formed buffer state tracks the editing fold exactly, echoing every
character and touching nothing else. -/
theorem runFrom_edit (cs : List Char) :
    ∀ P L, P.length ≤ cmdMAX_INPUT_SIZE →
      (∀ c ∈ cs, (' ' ≤ c ∧ c ≤ '~') ∨ c = backspaceChar ∨ c = cmdASCII_DEL) →
      runFrom { cInputString := mkBuf P, ucInputIndex := P.length,
                cLastInputString := L } cs
        = (some { cInputString := mkBuf (cs.foldl editStep P)
                  ucInputIndex := (cs.foldl editStep P).length
                  cLastInputString := L },
           cs.map Event.echo) := by
  induction cs with
  | nil => intro P L _ _; simp [runFrom]
  | cons c cs ih =>
    intro P L hlen hcs
    have hc := hcs c (by simp)
    rw [runFrom_cons_some c cs (processChar_edit P L c hlen hc),
      ih (editStep P c) L (editStep_length P c hlen)
        (fun x hx => hcs x (by simp [hx]))]
    simp

/-- Effect of the terminator branch on a well-formed buffer state whose
previous-command buffer is still all zeros: the accepted characters are
dispatched (also when there are none), the previous-command buffer receives
them, and the input buffer is cleared. -/
theorem termStep_mkBuf (P : List Char)
    (hlen : P.length + 1 ≤ cmdMAX_INPUT_SIZE) (hP : ∀ x ∈ P, x ≠ nul) :
    termStep { cInputString := mkBuf P, ucInputIndex := P.length,
               cLastInputString := List.replicate cmdMAX_INPUT_SIZE nul }
      = (some { cInputString := List.replicate cmdMAX_INPUT_SIZE nul
                ucInputIndex := 0
                cLastInputString :=
                  P ++ nul :: List.replicate (cmdMAX_INPUT_SIZE - (P.length + 1)) nul }
          , [Event.newline, Event.dispatch P, Event.endMsg]) := by
  have hmk := mkBuf_cons_nul P hlen
  have hcl : cLine (mkBuf P) = some P := by
    rw [hmk]
    exact cLine_append_nul P _ hP
  have hdroprep : (List.replicate cmdMAX_INPUT_SIZE nul).drop (P.length + 1)
      = List.replicate (cmdMAX_INPUT_SIZE - (P.length + 1)) nul :=
    List.drop_replicate ..
  have e1 : termInput ⟨mkBuf P, P.length, List.replicate cmdMAX_INPUT_SIZE nul⟩
      = some (mkBuf P) := by
    by_cases h0 : P.length = 0
    · obtain rfl : P = [] := List.length_eq_zero.mp h0
      have hsc : strcpyBuf (mkBuf []) (List.replicate cmdMAX_INPUT_SIZE nul)
          = some (mkBuf []) := by
        rw [strcpyBuf_of_cLine (cLine_replicate_nul cmdMAX_INPUT_SIZE (by decide))
          (by rw [mkBuf_length [] (by simp)]; decide)]
        rw [mkBuf_nil]
        decide
      simp [termInput, hsc]
    · simp [termInput, h0]
  have e3 : strcpyBuf (List.replicate cmdMAX_INPUT_SIZE nul) (mkBuf P)
      = some (P ++ nul :: List.replicate (cmdMAX_INPUT_SIZE - (P.length + 1)) nul) := by
    rw [strcpyBuf_of_cLine hcl (by simp; omega), hdroprep]
  exact termStep_build e1 hcl e3

theorem initState_mkBuf :
    initState = { cInputString := mkBuf [], ucInputIndex := 0,
                  cLastInputString := List.replicate cmdMAX_INPUT_SIZE nul } := by
  simp [initState, mkBuf]

theorem dispatchedLines_append (l₁ l₂ : List Event) :
    dispatchedLines (l₁ ++ l₂) = dispatchedLines l₁ ++ dispatchedLines l₂ := by
  simp [dispatchedLines]

theorem dispatchedLines_echo_map (cs : List Char) :
    dispatchedLines (cs.map Event.echo) = [] := by
  simp [dispatchedLines, dispatchLineOf]

/-! ### The state invariant -/

/-- Shape invariant of the console state: the input buffer holds exactly the
accepted printable characters followed by zero bytes with the index counting
them, and the previous-command buffer is a full-size buffer whose bytes are
all printable or NUL. -/
def MInv (s : ConsoleState) : Prop :=
  (∃ P, s.cInputString = mkBuf P ∧ s.ucInputIndex = P.length ∧
        P.length ≤ cmdMAX_INPUT_SIZE ∧ ∀ x ∈ P, ' ' ≤ x ∧ x ≤ '~') ∧
  s.cLastInputString.length = cmdMAX_INPUT_SIZE ∧
  ∀ x ∈ s.cLastInputString, (' ' ≤ x ∧ x ≤ '~') ∨ x = nul

theorem MInv_initState : MInv initState := by
  refine ⟨⟨[], ?_, rfl, by simp, by simp⟩, by simp [initState], ?_⟩
  · rw [initState_mkBuf]
  · intro x hx
    right
    exact List.eq_of_mem_replicate hx

theorem MInv_processChar {s s' : ConsoleState} {c : Char} {evs : List Event}
    (hinv : MInv s) (h : processChar s c = (some s', evs)) : MInv s' := by
  obtain ⟨⟨P, hin, hidx, hlenP, hPpr⟩, hlastlen, hlastok⟩ := hinv
  by_cases hterm : c = '\n' ∨ c = '\r'
  · -- terminator: lines 399-432
    rw [processChar_term s c hterm] at h
    obtain ⟨h1, h2⟩ := Prod.mk.injEq .. ▸ h
    rcases ht : termStep s with ⟨o, tl⟩
    rw [ht] at h1
    obtain rfl : o = some s' := h1
    obtain ⟨inp, line, newLast, hinp, hline, hlast, hs', hevs⟩ := termStep_eq_some ht
    have hlinepr : ∀ x ∈ line, ' ' ≤ x ∧ x ≤ '~' := by
      unfold termInput at hinp
      split at hinp
      · obtain ⟨Q, hQl, hQlen, hinp_eq⟩ := strcpyBuf_eq_some hinp
        have hQpr : ∀ x ∈ Q, ' ' ≤ x ∧ x ≤ '~' := by
          intro x hx
          rcases hlastok x (cLine_mem_subset hQl x hx) with hpr | hnul
          · exact hpr
          · exact absurd hnul (cLine_mem_ne_nul hQl x hx)
        have hclinp : cLine inp = some Q := by
          rw [hinp_eq]
          exact cLine_append_nul Q _ (fun x hx => printable_ne_nul (hQpr x hx))
        obtain rfl : Q = line := by
          rw [hclinp] at hline
          exact Option.some.inj hline
        exact hQpr
      · obtain rfl : s.cInputString = inp := Option.some.inj hinp
        rw [hin] at hline
        by_cases hfull : P.length = cmdMAX_INPUT_SIZE
        · have hnone : cLine (mkBuf P) = none := by
            unfold mkBuf
            rw [hfull, Nat.sub_self, List.replicate_zero, List.append_nil]
            exact cLine_no_nul (fun x hx => printable_ne_nul (hPpr x hx))
          rw [hnone] at hline
          cases hline
        · have hsome : cLine (mkBuf P) = some P := by
            rw [mkBuf_cons_nul P (by omega)]
            exact cLine_append_nul P _ (fun x hx => printable_ne_nul (hPpr x hx))
          rw [hsome] at hline
          obtain rfl : P = line := Option.some.inj hline
          exact hPpr
    obtain ⟨line2, hl2, hlen2, hnl⟩ := strcpyBuf_eq_some hlast
    obtain rfl : line2 = line := by
      rw [hline] at hl2
      exact (Option.some.inj hl2).symm
    subst hs'
    refine ⟨⟨[], mkBuf_nil.symm, rfl, by simp, by simp⟩, ?_, ?_⟩
    · rw [strcpyBuf_length hlast]
      exact hlastlen
    · intro x hx
      rw [hnl] at hx
      rcases List.mem_append.mp hx with hxl | hxr
      · exact Or.inl (hlinepr x hxl)
      · rcases List.mem_cons.mp hxr with rfl | hxd
        · exact Or.inr rfl
        · exact hlastok x (List.mem_of_mem_drop hxd)
  · by_cases hed : (' ' ≤ c ∧ c ≤ '~') ∨ (c = backspaceChar ∨ c = cmdASCII_DEL)
    · -- editing characters: lines 436-451
      rcases s with ⟨si, ui, sl⟩
      obtain rfl : si = mkBuf P := hin
      obtain rfl : ui = P.length := hidx
      rw [processChar_edit P sl c hlenP hed] at h
      obtain ⟨h1, h2⟩ := Prod.mk.injEq .. ▸ h
      obtain rfl :
          ({ cInputString := mkBuf (editStep P c)
             ucInputIndex := (editStep P c).length
             cLastInputString := sl } : ConsoleState) = s' := Option.some.inj h1
      refine ⟨⟨editStep P c, rfl, rfl, editStep_length P c hlenP, ?_⟩,
        hlastlen, hlastok⟩
      intro x hx
      rcases editStep_mem P c x hx with hxP | ⟨hc, rfl⟩
      · exact hPpr x hxP
      · exact hc
    · -- every other character is ignored: line 452 and lines 434-435
      obtain ⟨hpr, hbs⟩ := not_or.mp hed
      rw [processChar_other s c hterm hbs hpr] at h
      obtain ⟨h1, h2⟩ := Prod.mk.injEq .. ▸ h
      obtain rfl : s = s' := Option.some.inj h1
      exact ⟨⟨P, hin, hidx, hlenP, hPpr⟩, hlastlen, hlastok⟩

theorem MInv_runFrom (cs : List Char) :
    ∀ (s s' : ConsoleState) (tr : List Event),
      MInv s → runFrom s cs = (some s', tr) → MInv s' := by
  induction cs with
  | nil =>
    intro s s' tr hinv h
    obtain ⟨h1, h2⟩ := Prod.mk.injEq .. ▸ h
    obtain rfl : s = s' := Option.some.inj h1
    exact hinv
  | cons c cs ih =>
    intro s s' tr hinv h
    rw [runFrom_cons] at h
    rcases hp : processChar s c with ⟨o, evs⟩
    rw [hp] at h
    cases o with
    | none => simp at h
    | some s₁ =>
      obtain ⟨h1, h2⟩ := Prod.mk.injEq .. ▸ h
      rcases hr : runFrom s₁ cs with ⟨o₂, tr₂⟩
      rw [hr] at h1
      obtain rfl : o₂ = some s' := h1
      exact ih s₁ s' tr₂ (MInv_processChar hinv hp) hr

/-! ### Shape of a successful dispatch -/

theorem processChar_dispatch_shape {s s' : ConsoleState} {c : Char}
    {evs : List Event} {L : List Char}
    (hc : c = '\n' ∨ c = '\r') (h : processChar s c = (some s', evs))
    (hL : Event.dispatch L ∈ evs) :
    ∃ inp, termInput s = some inp ∧ cLine inp = some L ∧
      strcpyBuf s.cLastInputString inp = some s'.cLastInputString ∧
      s'.cInputString = List.replicate cmdMAX_INPUT_SIZE nul ∧
      s'.ucInputIndex = 0 ∧
      cLine s'.cLastInputString = some L ∧
      L.length + 1 ≤ s.cLastInputString.length := by
  rw [processChar_term s c hc] at h
  obtain ⟨h1, h2⟩ := Prod.mk.injEq .. ▸ h
  rcases ht : termStep s with ⟨o, tl⟩
  rw [ht] at h1 h2
  obtain rfl : o = some s' := h1
  obtain ⟨inp, line, newLast, hinp, hline, hlast, hs', hevs⟩ := termStep_eq_some ht
  subst hevs
  have hLl : L = line := by
    rw [← h2] at hL
    simp [Event.dispatch.injEq] at hL
    exact hL
  obtain ⟨line2, hl2, hlen2, hnl⟩ := strcpyBuf_eq_some hlast
  have hl2e : line2 = line := by
    rw [hline] at hl2
    exact (Option.some.inj hl2).symm
  subst hs'
  rw [hLl]
  rw [hl2e] at hlen2 hnl
  refine ⟨inp, hinp, hline, hlast, rfl, rfl, ?_, hlen2⟩
  show cLine newLast = some line
  rw [hnl]
  exact cLine_append_nul line _ (cLine_mem_ne_nul hline)

/-! ### The paced transmitter (prvSendBuffer, lines 343-354) -/

/-- Transport-level actions of the paced transmitter: starting an
asynchronous transmit of a number of bytes (`HAL_UART_Transmit_IT`, line 349)
and blocking on the Tx-complete semaphore with a timeout in milliseconds
(`xSemaphoreTake(xTxCompleteSemaphore, xBlockMax100ms)`, line 352). -/
inductive TxAction where
  | transmit (len : Nat)
  | waitTx (timeoutMs : Nat)
  deriving Repr, DecidableEq

/-- Lines 343-354: `prvSendBuffer(pcBuffer, xBufferLength)`.  When the length
is positive, a transmit of exactly `xBufferLength` bytes is started and the
task blocks on the Tx-complete semaphore for at most 100 ms; the result of
`xSemaphoreTake` is discarded, so the function returns normally whether or
not the completion signal arrived in time (`txSignalArrived`).  With length 0
nothing happens at all. -/
def prvSendBuffer (_txSignalArrived : Bool) (xBufferLength : Nat) : List TxAction :=
  if 0 < xBufferLength then [TxAction.transmit xBufferLength, TxAction.waitTx 100]
  else []

/-! ### The command dispatch loop (lines 414-422) -/

/-- `pdFALSE` of FreeRTOS, as a `portBASE_TYPE` value. -/
def pdFALSE : Int := 0

/-- Lines 414-422: the do/while dispatch loop.  `interp k` gives the output
buffer contents and the `portBASE_TYPE` value returned by the `k`-th call
(0-based) of `FreeRTOS_CLIProcessCommand` on the current line; the loop sends
the output buffer after every call and keeps calling while the returned value
is not `pdFALSE`.  `fuel` bounds the number of iterations modelled, since the
C loop need not terminate for an arbitrary interpreter. -/
def processCommandLoop (interp : Nat → String × Int) : Nat → Nat → List String
  | 0, _ => []
  | fuel + 1, k =>
    (interp k).1 ::
      (if (interp k).2 ≠ pdFALSE then processCommandLoop interp fuel (k + 1) else [])

theorem range_map_shift (interp : Nat → String × Int) (k N : Nat) :
    (List.range (N + 1)).map (fun i => (interp (k + i)).1)
      = (interp k).1 :: (List.range N).map (fun i => (interp (k + 1 + i)).1) := by
  rw [List.range_succ_eq_map, List.map_cons, List.map_map]
  congr 1
  apply List.map_congr_left
  intro i hi
  simp only [Function.comp_apply]
  congr 2
  omega

theorem processCommandLoop_go (interp : Nat → String × Int) (N : Nat) :
    ∀ k fuel, (∀ i, i < N → (interp (k + i)).2 ≠ pdFALSE) →
      (interp (k + N)).2 = pdFALSE → N < fuel →
      processCommandLoop interp fuel k
        = (List.range (N + 1)).map (fun i => (interp (k + i)).1) := by
  induction N with
  | zero =>
    intro k fuel hmore hdone hfuel
    obtain ⟨m, rfl⟩ : ∃ m, fuel = m + 1 := ⟨fuel - 1, by omega⟩
    unfold processCommandLoop
    rw [Nat.add_zero] at hdone
    rw [if_neg (by simp [hdone])]
    have hr : List.range 1 = [0] := rfl
    rw [hr, List.map_cons, List.map_nil, Nat.add_zero]
  | succ N ih =>
    intro k fuel hmore hdone hfuel
    obtain ⟨m, rfl⟩ : ∃ m, fuel = m + 1 := ⟨fuel - 1, by omega⟩
    unfold processCommandLoop
    have h0 : (interp k).2 ≠ pdFALSE := by
      have := hmore 0 (by omega)
      simpa using this
    rw [if_pos h0]
    rw [ih (k + 1) m
      (fun i hi => by
        have := hmore (i + 1) (by omega)
        rwa [show k + (i + 1) = k + 1 + i by omega] at this)
      (by rwa [show k + 1 + N = k + (N + 1) by omega])
      (by omega)]
    rw [range_map_shift interp k (N + 1)]

/-! ### The claims -/

/-- C1 (amended: the accepted characters must number at most capacity − 1 =
49, since a line of exactly 50 characters leaves no room for the NUL
terminator and the dispatch runs out of bounds — see the counterexample):
for every sequence of printable ASCII characters interleaved with
backspace/DEL edits, followed by a single terminator (CR or LF), the line
passed to `FreeRTOS_CLIProcessCommand` is exactly the characters accepted
after applying the backspace editing, case-preserved, and contains no
terminator character. -/
theorem dispatchedLine_eq_editLine (cs : List Char) (t : Char)
    (halpha : ∀ c ∈ cs, (' ' ≤ c ∧ c ≤ '~') ∨ c = backspaceChar ∨ c = cmdASCII_DEL)
    (hcount : cs.countP printableB + 1 ≤ cmdMAX_INPUT_SIZE)
    (ht : t = '\r' ∨ t = '\n') :
    dispatchedLines (runConsole (cs ++ [t])).2 = [editLine cs] ∧
    '\r' ∉ editLine cs ∧ '\n' ∉ editLine cs := by
  have hEpr : ∀ x ∈ cs.foldl editStep [], ' ' ≤ x ∧ x ≤ '~' :=
    editLine_printable cs [] (by simp)
  have hElen : (cs.foldl editStep []).length + 1 ≤ cmdMAX_INPUT_SIZE := by
    have h := editLine_length cs []
    simp only [List.length_nil, Nat.zero_add] at h
    omega
  have hrunE := runFrom_edit cs [] (List.replicate cmdMAX_INPUT_SIZE nul)
    (by simp) halpha
  simp only [List.length_nil] at hrunE
  rw [← initState_mkBuf] at hrunE
  have happ := runFrom_append_some cs [t] hrunE
  rw [runFrom_single] at happ
  rw [processChar_term _ t ht.symm] at happ
  rw [termStep_mkBuf (cs.foldl editStep []) hElen
    (fun x hx => printable_ne_nul (hEpr x hx))] at happ
  refine ⟨?_, ?_, ?_⟩
  · show dispatchedLines (runConsole (cs ++ [t])).2 = [cs.foldl editStep []]
    unfold runConsole
    rw [happ]
    simp [dispatchedLines, dispatchLineOf]
  · intro hmem
    exact absurd (hEpr '\r' hmem).1 (by decide)
  · intro hmem
    exact absurd (hEpr '\n' hmem).1 (by decide)

/-- Witness for the amended C1: typing "hi" then CR dispatches exactly
"hi". -/
theorem dispatchedLine_eq_editLine_witness :
    dispatchedLines (runConsole ((['h', 'i'] : List Char) ++ ['\r'])).2
        = [editLine ['h', 'i']] ∧
    '\r' ∉ editLine ['h', 'i'] ∧ '\n' ∉ editLine ['h', 'i'] :=
  dispatchedLine_eq_editLine ['h', 'i'] '\r' (by decide) (by decide) (Or.inl rfl)

/-- C1 counterexample: a sequence of exactly capacity (50) printable
characters — inside the claim's "length at most the capacity" — followed by a
terminator does not dispatch the accepted line at all: the full buffer holds
no NUL terminator, so the dispatch runs out of bounds and nothing is passed
to the interpreter as a bounded line. -/
theorem fullLine_dispatch_oob :
    editLine (List.replicate cmdMAX_INPUT_SIZE 'a')
        = List.replicate cmdMAX_INPUT_SIZE 'a' ∧
    dispatchedLines (runConsole (List.replicate cmdMAX_INPUT_SIZE 'a' ++ ['\r'])).2 = [] ∧
    (runConsole (List.replicate cmdMAX_INPUT_SIZE 'a' ++ ['\r'])).1 = none :=
  ⟨by decide, by decide, by decide⟩

/-- C2 (code bug): the branch that is meant to ignore a carriage return
following a terminator (lines 434-435, commented "Ignore the character") is
unreachable, because line 399 already treats `'\r'` as a terminator.  After
the CR of a CRLF pair dispatches "ab", the LF is treated as a new empty-line
submission and re-dispatches the same line: the pair triggers two dispatches,
not one. -/
theorem crlf_double_dispatch :
    dispatchedLines (runConsole ['a', 'b', '\r', '\n']).2
      = [['a', 'b'], ['a', 'b']] := by decide

/-- C3: when `FreeRTOS_CLIProcessCommand` returns a not-pdFALSE value on its
first N calls and pdFALSE on call N, the do/while loop of lines 414-422
calls it exactly N + 1 times and sends the N + 1 output-buffer contents to
the transmitter in call order, one transmission per call. -/
theorem processCommandLoop_chunks (interp : Nat → String × Int) (N fuel : Nat)
    (hmore : ∀ i, i < N → (interp i).2 ≠ pdFALSE)
    (hdone : (interp N).2 = pdFALSE) (hfuel : N < fuel) :
    processCommandLoop interp fuel 0
      = (List.range (N + 1)).map (fun i => (interp i).1) := by
  have h := processCommandLoop_go interp N 0 fuel
    (fun i hi => by simpa using hmore i hi) (by simpa using hdone) hfuel
  rw [h]
  apply List.map_congr_left
  intro i hi
  rw [Nat.zero_add]

/-- Witness for C3: an interpreter signalling more-output twice produces
exactly three chunks, in call order. -/
theorem processCommandLoop_chunks_witness :
    processCommandLoop (fun i => (toString i, if i < 2 then 1 else 0)) 4 0
      = (List.range (2 + 1)).map
          (fun i => ((fun i => ((toString i : String), if i < 2 then (1 : Int) else 0)) i).1) :=
  processCommandLoop_chunks (fun i => (toString i, if i < 2 then 1 else 0)) 2 4
    (by decide) (by decide) (by decide)

/-- C4: a terminator received with input length 0 right after a successful
dispatch re-dispatches exactly the line that was just dispatched (the
`strcpy` of lines 405-408); and a terminator received before any command was
ever dispatched dispatches the empty line, with no undefined behaviour. -/
theorem emptyLine_repeat_dispatch :
    (∀ (s s' : ConsoleState) (c c' : Char) (evs : List Event) (L : List Char),
       s.cLastInputString.length = cmdMAX_INPUT_SIZE →
       (c = '\n' ∨ c = '\r') → (c' = '\n' ∨ c' = '\r') →
       processChar s c = (some s', evs) → Event.dispatch L ∈ evs →
       dispatchedLines (processChar s' c').2 = [L] ∧ (processChar s' c').1.isSome)
    ∧ dispatchedLines (runConsole ['\r']).2 = [[]]
    ∧ (runConsole ['\r']).1.isSome := by
  refine ⟨?_, by decide, by decide⟩
  intro s s' c c' evs L hlast hc hc' h hL
  obtain ⟨inp, hinp, hline, hcopy, h4, h5, h6, h7⟩ :=
    processChar_dispatch_shape hc h hL
  have hlen50 : L.length + 1 ≤ cmdMAX_INPUT_SIZE := by
    rw [hlast] at h7
    exact h7
  have e1 : termInput s' = some (mkBuf L) := by
    unfold termInput
    rw [if_pos h5, h4]
    rw [strcpyBuf_of_cLine h6 (by simp; omega)]
    rw [List.drop_replicate, mkBuf_cons_nul L hlen50]
  have e2 : cLine (mkBuf L) = some L := by
    rw [mkBuf_cons_nul L hlen50]
    exact cLine_append_nul L _ (cLine_mem_ne_nul hline)
  have e3 : strcpyBuf s'.cLastInputString (mkBuf L)
      = some (L ++ nul :: s'.cLastInputString.drop (L.length + 1)) := by
    apply strcpyBuf_of_cLine e2
    rw [strcpyBuf_length hcopy, hlast]
    omega
  rw [processChar_term s' c' hc', termStep_build e1 e2 e3]
  constructor
  · simp [dispatchedLines, dispatchLineOf]
  · simp

/-- Witness for C4: after "hi" was dispatched, an immediate LF re-dispatches
exactly "hi". -/
theorem emptyLine_repeat_dispatch_witness :
    dispatchedLines (processChar ⟨List.replicate cmdMAX_INPUT_SIZE nul, 0,
        'h' :: 'i' :: nul :: List.replicate 47 nul⟩ '\n').2 = [['h', 'i']] ∧
    (processChar ⟨List.replicate cmdMAX_INPUT_SIZE nul, 0,
        'h' :: 'i' :: nul :: List.replicate 47 nul⟩ '\n').1.isSome :=
  emptyLine_repeat_dispatch.1
    ⟨mkBuf ['h', 'i'], 2, List.replicate cmdMAX_INPUT_SIZE nul⟩
    ⟨List.replicate cmdMAX_INPUT_SIZE nul, 0, 'h' :: 'i' :: nul :: List.replicate 47 nul⟩
    '\r' '\n' [Event.echo '\r', Event.newline, Event.dispatch ['h', 'i'], Event.endMsg]
    ['h', 'i'] (by decide) (Or.inr rfl) (Or.inl rfl) (by decide) (by decide)

/-- C5 (code bug): feeding capacity + 1 = 51 printable characters accepts
exactly the first 50 and drops the 51st (no write beyond the index bound,
lines 447-451), but the full buffer then holds no NUL terminator, so on the
terminator the dispatch reads past `cInputString` and
`strcpy(cLastInputString, cInputString)` (line 428) writes at least 51 bytes
into the 50-byte `cLastInputString`: an out-of-bounds write, contradicting
the claim's safety part. -/
theorem overlong_line_oob :
    (runFrom initState (List.replicate (cmdMAX_INPUT_SIZE + 1) 'a')).1
        = some ⟨List.replicate cmdMAX_INPUT_SIZE 'a', cmdMAX_INPUT_SIZE,
                List.replicate cmdMAX_INPUT_SIZE nul⟩ ∧
    cLine (List.replicate cmdMAX_INPUT_SIZE 'a') = none ∧
    (runConsole (List.replicate (cmdMAX_INPUT_SIZE + 1) 'a' ++ ['\r'])).1 = none ∧
    (runConsole (List.replicate (cmdMAX_INPUT_SIZE + 1) 'a' ++ ['\r'])).2.getLast?
        = some Event.oob :=
  ⟨by decide, by decide, by decide, by decide⟩

/-- C6: `prvSendBuffer` with length 0 performs no transport operation and
returns immediately; with a positive length it starts an asynchronous
transmit of exactly that many bytes and blocks on the Tx-complete semaphore
with a 100 ms bound; and its behaviour is identical whether or not the
completion signal arrived in time — a timed-out wait is never escalated to
an error (lines 343-354). -/
theorem prvSendBuffer_spec (sig : Bool) (len : Nat) :
    (len = 0 → prvSendBuffer sig len = []) ∧
    (0 < len → prvSendBuffer sig len
        = [TxAction.transmit len, TxAction.waitTx 100]) ∧
    prvSendBuffer sig len = prvSendBuffer true len := by
  unfold prvSendBuffer
  refine ⟨?_, ?_, rfl⟩
  · intro h
    rw [if_neg (by omega)]
  · intro h
    rw [if_pos h]

/-- Witness for C6 at lengths 0 and 3 with the completion signal absent. -/
theorem prvSendBuffer_spec_witness :
    prvSendBuffer false 0 = [] ∧
    prvSendBuffer false 3 = [TxAction.transmit 3, TxAction.waitTx 100] :=
  ⟨(prvSendBuffer_spec false 0).1 rfl, (prvSendBuffer_spec false 3).2.1 (by decide)⟩

/-- C7: whenever processing a terminator dispatches a line L, then before the
next character is processed the dispatched line has been copied into the
last-command buffer (line 428) — including when the dispatch was itself a
repeat — and the input line has been reset to index 0 with all bytes zeroed
(lines 429-430). -/
theorem dispatch_resets_state (s s' : ConsoleState) (c : Char)
    (evs : List Event) (L : List Char) (hc : c = '\n' ∨ c = '\r')
    (h : processChar s c = (some s', evs)) (hL : Event.dispatch L ∈ evs) :
    s'.ucInputIndex = 0 ∧
    s'.cInputString = List.replicate cmdMAX_INPUT_SIZE nul ∧
    cLine s'.cLastInputString = some L := by
  obtain ⟨inp, _, _, _, h4, h5, h6, _⟩ := processChar_dispatch_shape hc h hL
  exact ⟨h5, h4, h6⟩

/-- Witness for C7 at a concrete dispatch of "hi". -/
theorem dispatch_resets_state_witness :
    (⟨List.replicate cmdMAX_INPUT_SIZE nul, 0,
        'h' :: 'i' :: nul :: List.replicate 47 nul⟩ : ConsoleState).ucInputIndex = 0 ∧
    (⟨List.replicate cmdMAX_INPUT_SIZE nul, 0,
        'h' :: 'i' :: nul :: List.replicate 47 nul⟩ : ConsoleState).cInputString
      = List.replicate cmdMAX_INPUT_SIZE nul ∧
    cLine (⟨List.replicate cmdMAX_INPUT_SIZE nul, 0,
        'h' :: 'i' :: nul :: List.replicate 47 nul⟩ : ConsoleState).cLastInputString
      = some ['h', 'i'] :=
  dispatch_resets_state
    ⟨mkBuf ['h', 'i'], 2, List.replicate cmdMAX_INPUT_SIZE nul⟩
    ⟨List.replicate cmdMAX_INPUT_SIZE nul, 0, 'h' :: 'i' :: nul :: List.replicate 47 nul⟩
    '\r' [Event.echo '\r', Event.newline, Event.dispatch ['h', 'i'], Event.endMsg]
    ['h', 'i'] (Or.inr rfl) (by decide) (by decide)

/-- C8: after processing any sequence of received characters (without
undefined behaviour), the input line invariant holds: the index never
exceeds the capacity of 50, the stored line (the first `ucInputIndex` bytes)
is printable ASCII (space through tilde) only, and no control character ever
appears anywhere in the input buffer — every byte is printable or NUL.  This
is preserved by appends, backspace edits, dispatch clearing and the
empty-line copy from the last-command buffer alike. -/
theorem inputLine_invariant (cs : List Char) (s : ConsoleState) (tr : List Event)
    (h : runConsole cs = (some s, tr)) :
    s.ucInputIndex ≤ cmdMAX_INPUT_SIZE ∧
    (∀ x ∈ s.cInputString.take s.ucInputIndex, ' ' ≤ x ∧ x ≤ '~') ∧
    (∀ x ∈ s.cInputString, (' ' ≤ x ∧ x ≤ '~') ∨ x = nul) := by
  have hinv := MInv_runFrom cs initState s tr MInv_initState h
  obtain ⟨⟨P, hin, hidx, hlenP, hPpr⟩, _, _⟩ := hinv
  refine ⟨by rw [hidx]; exact hlenP, ?_, ?_⟩
  · rw [hin, hidx]
    unfold mkBuf
    rw [List.take_left]
    exact hPpr
  · rw [hin]
    intro x hx
    unfold mkBuf at hx
    rcases List.mem_append.mp hx with h1 | h2
    · exact Or.inl (hPpr x h1)
    · exact Or.inr (List.eq_of_mem_replicate h2)

/-- Witness for C8 after receiving a single printable character. -/
theorem inputLine_invariant_witness :
    (⟨'a' :: List.replicate 49 nul, 1,
        List.replicate cmdMAX_INPUT_SIZE nul⟩ : ConsoleState).ucInputIndex
      ≤ cmdMAX_INPUT_SIZE ∧
    (∀ x ∈ (⟨'a' :: List.replicate 49 nul, 1,
        List.replicate cmdMAX_INPUT_SIZE nul⟩ : ConsoleState).cInputString.take
          (⟨'a' :: List.replicate 49 nul, 1,
            List.replicate cmdMAX_INPUT_SIZE nul⟩ : ConsoleState).ucInputIndex,
        ' ' ≤ x ∧ x ≤ '~') ∧
    (∀ x ∈ (⟨'a' :: List.replicate 49 nul, 1,
        List.replicate cmdMAX_INPUT_SIZE nul⟩ : ConsoleState).cInputString,
        (' ' ≤ x ∧ x ≤ '~') ∨ x = nul) :=
  inputLine_invariant ['a']
    ⟨'a' :: List.replicate 49 nul, 1, List.replicate cmdMAX_INPUT_SIZE nul⟩
    [Event.echo 'a'] (by decide)

/-- C9: backspace or DEL received on a line of accepted characters P removes
exactly the last character when P is nonempty and is a no-op when P is empty
— the length moves from `P.length` to `P.length - 1` (0 stays 0: no
underflow), the buffer cell is re-zeroed, and nothing else changes
(lines 436-442). -/
theorem backspace_spec (P L : List Char) (c : Char)
    (hlen : P.length ≤ cmdMAX_INPUT_SIZE)
    (hc : c = backspaceChar ∨ c = cmdASCII_DEL) :
    processChar ⟨mkBuf P, P.length, L⟩ c
      = (some ⟨mkBuf P.dropLast, P.length - 1, L⟩, [Event.echo c]) := by
  have h := processChar_edit P L c hlen (Or.inr hc)
  have he : editStep P c = P.dropLast := by
    unfold editStep
    rw [if_pos hc]
  rw [he, List.length_dropLast] at h
  exact h

/-- Witness for C9: backspace on "ab" leaves "a"; the same theorem at `P = []`
gives the no-op case. -/
theorem backspace_spec_witness :
    processChar ⟨mkBuf ['a', 'b'], (['a', 'b'] : List Char).length,
        List.replicate cmdMAX_INPUT_SIZE nul⟩ backspaceChar
      = (some ⟨mkBuf (['a', 'b'] : List Char).dropLast,
              (['a', 'b'] : List Char).length - 1,
              List.replicate cmdMAX_INPUT_SIZE nul⟩,
         [Event.echo backspaceChar]) :=
  backspace_spec ['a', 'b'] (List.replicate cmdMAX_INPUT_SIZE nul) backspaceChar
    (by decide) (Or.inl rfl)

/-- C10: every received character is echoed back (the `prvSendBuffer` of the
single received byte, line 396) before the line editor classifies it: in
every state and for every character — terminator, backspace, printable,
printable-dropped-at-capacity or ignored control character — the echo is the
first observable action of the step.  Echo reflects reception, not
acceptance. -/
theorem echo_before_classify : ∀ (s : ConsoleState) (c : Char),
    ((processChar s c).2).head? = some (Event.echo c) := by
  intro s c
  unfold processChar
  split
  · rfl
  · split
    · rfl
    · split
      · rfl
      · split
        · rfl
        · rfl

end CommandLineInterface
